import Mathlib

/-!
Verification of the bookshelf digital-twin backend
(`backend/models/bookshelf.py`, `backend/main.py`,
`backend/services/openlibrary_service.py`).

The Python managers are embedded as pure functions: file persistence is
replaced by explicit state passing, and `datetime.now().isoformat()` is an
explicit `now : String` argument.  CPython dictionaries are modelled as
association lists with insertion-order semantics (updating an existing key
replaces the value in place; a new key is appended), and Python's stable
`sorted` is modelled by a stable insertion sort.
-/

/-- Python `str.lower()` (ASCII case folding), acting on the character list. -/
def pyLower (s : String) : String :=
  ⟨s.data.map Char.toLower⟩

/-- Python `str.strip()`: drop whitespace from both ends of the string. -/
def pyStrip (s : String) : String :=
  ⟨((s.data.dropWhile Char.isWhitespace).reverse.dropWhile Char.isWhitespace).reverse⟩

/-- `Book` model (`bookshelf.py`, class `Book`): title, author, optional
cover URL, and an integer display order defaulting to 0. -/
structure Book where
  title : String
  author : String
  cover_url : Option String := none
  order : Int := 0
deriving DecidableEq, Repr

/-- Normalized identity key used for deduplication
(`Book.book_key`: `(self.title.lower().strip(), self.author.lower().strip())`). -/
def Book.book_key (b : Book) : String × String :=
  (pyStrip (pyLower b.title), pyStrip (pyLower b.author))

/-- The key actually used by `BookshelfManager.add_books`, `remove_book` and
`reorder_books`: `(x.lower(), y.lower())` — lowercased but NOT stripped. -/
def lowerKey (b : Book) : String × String :=
  (pyLower b.title, pyLower b.author)

/-- `Bookshelf` model: ordered list of books plus an optional timestamp. -/
structure Bookshelf where
  books : List Book := []
  last_updated : Option String := none
deriving DecidableEq, Repr

/-- `AuditSession` model: transient scratch collection of scanned books. -/
structure AuditSession where
  scanned_books : List Book := []
  photos_taken : Nat := 0
  started_at : Option String := none
  last_scan_at : Option String := none
deriving DecidableEq, Repr

/-- `AuditDiff` model: three-way difference between session and bookshelf. -/
structure AuditDiff where
  books_to_add : List Book := []
  books_to_remove : List Book := []
  books_matching : List Book := []
deriving DecidableEq, Repr

/-! ### Ordered dictionaries (CPython `dict` semantics)

A dict is an association list in insertion order.  Assigning to an existing
key replaces the value in place (the entry keeps its position); assigning a
fresh key appends the entry at the end.  `BKey` is the `(string, string)`
key type used throughout. -/

abbrev BKey := String × String

/-- `d[k] = v` on a CPython dict: replace in place, or append a new entry. -/
def odUpsert {β : Type} (d : List (BKey × β)) (k : BKey) (v : β) : List (BKey × β) :=
  if d.any (fun p => p.1 == k) then
    d.map (fun p => if p.1 == k then (p.1, v) else p)
  else
    d ++ [(k, v)]

/-- `d.get(k)` on a dict: the value stored under `k`, if any. -/
def odLookup {β : Type} (d : List (BKey × β)) (k : BKey) : Option β :=
  (d.find? (fun p => p.1 == k)).map Prod.snd

/-- `d.values()` on a dict, in insertion order. -/
def odValues {β : Type} (d : List (BKey × β)) : List β :=
  d.map Prod.snd

/-- A dict comprehension `{keyf(b): b for b in l}`: later values win, the
entry keeps the position of its first insertion. -/
def odOfList {β : Type} (keyf : β → BKey) (l : List β) : List (BKey × β) :=
  l.foldl (fun d b => odUpsert d (keyf b) b) []

/-! ### Python's stable `sorted(..., key=lambda b: b.order)`

Modelled by a stable insertion sort: an element is inserted before the first
later element whose order is `≥` its own, so books with equal `order` keep
their original relative position, exactly as CPython's stable sort does. -/

/-- Insert a book into an order-sorted list, before the first book whose
order is not smaller (stability: earlier books with equal order stay first). -/
def insertByOrder (x : Book) : List Book → List Book
  | [] => [x]
  | y :: ys => if x.order ≤ y.order then x :: y :: ys else y :: insertByOrder x ys

/-- Stable sort of a book list by ascending `order`. -/
def sortByOrder : List Book → List Book
  | [] => []
  | x :: xs => insertByOrder x (sortByOrder xs)

/-! ### BookshelfManager -/

/-- `max((b.order for b in bookshelf.books), default=-1)`. -/
def maxOrder (books : List Book) : Int :=
  match books with
  | [] => -1
  | b :: bs => bs.foldl (fun m b2 => max m b2.order) b.order

/-- The `for book in books` loop of `add_books`: a known key overwrites the
dict entry with the incoming book as-is; a new key gets `order = max_order+1`
(threaded across the batch) and is appended. -/
def addBooksLoop : List Book → List (BKey × Book) → Int → List (BKey × Book)
  | [], d, _ => d
  | b :: bs, d, m =>
    if d.any (fun p => p.1 == lowerKey b) then
      addBooksLoop bs (odUpsert d (lowerKey b) b) m
    else
      addBooksLoop bs (odUpsert d (lowerKey b) { b with order := m + 1 }) (m + 1)

/-- `BookshelfManager.add_books`: dedup against the current shelf by the
lowercased (untrimmed) key, assign fresh trailing orders to new keys, then
re-sort by `order` and stamp `last_updated`. -/
def add_books (shelf : Bookshelf) (books : List Book) (now : String) : Bookshelf :=
  let existing := odOfList lowerKey shelf.books
  let d := addBooksLoop books existing (maxOrder shelf.books)
  { books := sortByOrder (odValues d), last_updated := some now }

/-- `BookshelfManager.clear_bookshelf`. -/
def clear_bookshelf (now : String) : Bookshelf :=
  { books := [], last_updated := some now }

/-- The removal test of `remove_book`:
`b.title.lower() == title.lower() and b.author.lower() == author.lower()`. -/
def removeMatch (title author : String) (b : Book) : Bool :=
  pyLower b.title == pyLower title && pyLower b.author == pyLower author

/-- The `for i, book in enumerate(books)` re-normalization loop of
`remove_book`: rebuild each book with `order = i`. -/
def renumberFrom : Nat → List Book → List Book
  | _, [] => []
  | i, b :: bs => { b with order := (i : Int) } :: renumberFrom (i + 1) bs

/-- `BookshelfManager.remove_book`: filter out key matches, re-normalize the
remaining orders to `0..n-1` in list order, stamp `last_updated`. -/
def remove_book (shelf : Bookshelf) (title author : String) (now : String) : Bookshelf :=
  let filtered := shelf.books.filter (fun b => !(removeMatch title author b))
  { books := renumberFrom 0 filtered, last_updated := some now }

/-- One `{title, author, order}` entry of a reorder request. -/
structure OrderEntry where
  title : String
  author : String
  order : Int
deriving DecidableEq, Repr

/-- The `order_map` dict of `reorder_books`, keyed by the lowercased
(untrimmed) title/author pair; duplicate keys: the last entry wins. -/
def orderMap (entries : List OrderEntry) : List (BKey × Int) :=
  entries.foldl (fun d e => odUpsert d (pyLower e.title, pyLower e.author) e.order) []

/-- One step of the update loop of `reorder_books`:
`new_order = order_map.get(key, book.order)`. -/
def applyOrder (m : List (BKey × Int)) (b : Book) : Book :=
  { b with order := (odLookup m (pyLower b.title, pyLower b.author)).getD b.order }

/-- `BookshelfManager.reorder_books`: overwrite the order of every book whose
key appears in the request, keep the others, stable-sort by the new orders. -/
def reorder_books (shelf : Bookshelf) (entries : List OrderEntry) (now : String) : Bookshelf :=
  let updated := shelf.books.map (applyOrder (orderMap entries))
  { books := sortByOrder updated, last_updated := some now }

/-! ### AuditSessionManager -/

/-- Python truthiness of an `Optional[str]`: `None` and `""` are falsy. -/
def truthyStr : Option String → Bool
  | none => false
  | some s => s != ""

/-- One step of the dedup loop of `add_scanned_books`: a new key is added;
an existing key is replaced only if the incoming book has a truthy
`cover_url` and the stored one does not. -/
def scanStep (d : List (BKey × Book)) (b : Book) : List (BKey × Book) :=
  match odLookup d b.book_key with
  | none => odUpsert d b.book_key b
  | some old =>
    if truthyStr b.cover_url && !truthyStr old.cover_url then
      odUpsert d b.book_key b
    else
      d

/-- `AuditSessionManager.add_scanned_books`: lazy-start the session, dedup
incoming books by `book_key` (cover-preserving), bump `photos_taken`. -/
def add_scanned_books (s : AuditSession) (books : List Book) (now : String) : AuditSession :=
  let existing := odOfList Book.book_key s.scanned_books
  let d := books.foldl scanStep existing
  { scanned_books := odValues d
    photos_taken := s.photos_taken + 1
    started_at := match s.started_at with | none => some now | some t => some t
    last_scan_at := some now }

/-- `AuditSessionManager.clear_session`: reset to the all-default session. -/
def clear_session : AuditSession :=
  {}

/-- `AuditSessionManager.compute_diff`.  The Python key sets are modelled as
key lists; the filters below only use membership, on which list and set
agree. -/
def compute_diff (session : AuditSession) (main : Bookshelf) : AuditDiff :=
  let audit_keys := session.scanned_books.map Book.book_key
  let main_keys := main.books.map Book.book_key
  let to_add_keys := audit_keys.filter (fun k => !(main_keys.contains k))
  let to_remove_keys := main_keys.filter (fun k => !(audit_keys.contains k))
  let matching_keys := audit_keys.filter (fun k => main_keys.contains k)
  { books_to_add := session.scanned_books.filter (fun b => to_add_keys.contains b.book_key)
    books_to_remove := main.books.filter (fun b => to_remove_keys.contains b.book_key)
    books_matching := session.scanned_books.filter (fun b => matching_keys.contains b.book_key) }

/-! ### main.py: POST /audit/apply -/

/-- `apply_audit_diff` (`main.py`): compute the diff against the current
shelf, add `books_to_add` as one batch if requested and non-empty, remove
each of `books_to_remove` in turn if requested and non-empty, then
unconditionally clear the audit session. -/
def apply_audit_diff (shelf : Bookshelf) (session : AuditSession)
    (add_new_books remove_missing_books : Bool) (now : String) :
    Bookshelf × AuditSession :=
  let diff := compute_diff session shelf
  let shelf1 :=
    if add_new_books && !diff.books_to_add.isEmpty then
      add_books shelf diff.books_to_add now
    else shelf
  let shelf2 :=
    if remove_missing_books && !diff.books_to_remove.isEmpty then
      diff.books_to_remove.foldl (fun s b => remove_book s b.title b.author now) shelf1
    else shelf1
  (shelf2, clear_session)

/-! ### openlibrary_service.get_book_cover_url

The HTTP interaction is abstracted into an outcome value.  The `try` block
covers the request, `raise_for_status()`, `response.json()` and the
dictionary accesses; the `except` clause catches exactly
`(httpx.HTTPError, KeyError, IndexError)`.  `response.json()` on a
malformed body raises `json.JSONDecodeError`, which is none of these, so it
escapes the function. -/

/-- One document of the OpenLibrary search response:
`doc.get("cover_i")` and `doc.get("isbn", [])`. -/
structure OLDoc where
  cover_i : Option Int := none
  isbn : List String := []

/-- A successfully parsed search response: `data.get("docs")`. -/
structure OLSearchData where
  docs : Option (List OLDoc) := none

/-- Outcome of the HTTP call made by `get_book_cover_url`. -/
inductive FetchOutcome
  /-- `client.get` raises a network-level `httpx.HTTPError`. -/
  | requestError
  /-- `response.raise_for_status()` raises `httpx.HTTPStatusError`. -/
  | statusError
  /-- `response.json()` raises `json.JSONDecodeError` (body is not JSON). -/
  | malformedBody
  /-- the body parses into the given structure. -/
  | parsed (data : OLSearchData)

/-- A Python exception escaping `get_book_cover_url` to its caller. -/
inductive PyError
  | jsonDecodeError
deriving DecidableEq

/-- `openlibrary_service.get_book_cover_url`, as a function of the abstract
HTTP outcome.  `.ok` is a normal return, `.error` an escaping exception. -/
def get_book_cover_url (title author : String) (outcome : FetchOutcome) :
    Except PyError (Option String) :=
  match outcome with
  | .requestError => .ok none
  | .statusError => .ok none
  | .malformedBody => .error .jsonDecodeError
  | .parsed data =>
    match data.docs with
    | some (doc :: _) =>
      match doc.cover_i with
      | some cid =>
        if cid != 0 then
          .ok (some ("https://covers.openlibrary.org/b/id/" ++ toString cid ++ "-M.jpg"))
        else
          match doc.isbn with
          | isbn :: _ => .ok (some ("https://covers.openlibrary.org/b/isbn/" ++ isbn ++ "-M.jpg"))
          | [] => .ok none
      | none =>
        match doc.isbn with
        | isbn :: _ => .ok (some ("https://covers.openlibrary.org/b/isbn/" ++ isbn ++ "-M.jpg"))
        | [] => .ok none
    | _ => .ok none

/-! ### Definitions used only in statements -/

/-- The non-order fields of a book, used to state frame conditions. -/
def bookFields (b : Book) : String × String × Option String :=
  (b.title, b.author, b.cover_url)

/-- Exactly one of three propositions holds. -/
def exactlyOne (a b c : Prop) : Prop :=
  (a ∧ ¬ b ∧ ¬ c) ∨ (¬ a ∧ b ∧ ¬ c) ∨ (¬ a ∧ ¬ b ∧ c)

/-! ## Helper lemmas: the stable sort -/

/-- Inserting by order is a permutation: the result rearranges `x :: l`. -/
theorem insertByOrder_perm (x : Book) (l : List Book) :
    (insertByOrder x l).Perm (x :: l) := by
  induction l with
  | nil => exact List.Perm.refl _
  | cons y ys ih =>
    simp only [insertByOrder]
    split
    · exact List.Perm.refl _
    · exact (ih.cons y).trans (List.Perm.swap x y ys)

/-- The stable sort is a permutation of its input. -/
theorem sortByOrder_perm (l : List Book) : (sortByOrder l).Perm l := by
  induction l with
  | nil => exact List.Perm.refl _
  | cons x xs ih => exact (insertByOrder_perm x (sortByOrder xs)).trans (ih.cons x)

/-- Membership is unchanged by the stable sort. -/
theorem mem_sortByOrder {b : Book} {l : List Book} : b ∈ sortByOrder l ↔ b ∈ l :=
  (sortByOrder_perm l).mem_iff

/-- Inserting into an order-sorted list keeps it order-sorted. -/
theorem pairwise_insertByOrder {x : Book} {l : List Book}
    (h : l.Pairwise (fun a b => a.order ≤ b.order)) :
    (insertByOrder x l).Pairwise (fun a b => a.order ≤ b.order) := by
  induction l with
  | nil => simp [insertByOrder]
  | cons y ys ih =>
    rcases List.pairwise_cons.mp h with ⟨hy, hys⟩
    simp only [insertByOrder]
    split
    · next hle =>
      refine List.pairwise_cons.mpr ⟨?_, h⟩
      intro b hb
      rcases List.mem_cons.mp hb with rfl | hb
      · exact hle
      · exact le_trans hle (hy b hb)
    · next hle =>
      refine List.pairwise_cons.mpr ⟨?_, ih hys⟩
      intro b hb
      rcases List.mem_cons.mp ((insertByOrder_perm x ys).mem_iff.mp hb) with rfl | h1
      · exact le_of_not_le hle
      · exact hy b h1

/-- The stable sort produces an order-sorted list. -/
theorem sortByOrder_sorted (l : List Book) :
    (sortByOrder l).Pairwise (fun a b => a.order ≤ b.order) := by
  induction l with
  | nil => simp [sortByOrder]
  | cons x xs ih => exact pairwise_insertByOrder ih

/-- Sorting an already order-sorted list changes nothing. -/
theorem sortByOrder_of_sorted {l : List Book}
    (h : l.Pairwise (fun a b => a.order ≤ b.order)) : sortByOrder l = l := by
  induction l with
  | nil => rfl
  | cons x xs ih =>
    rcases List.pairwise_cons.mp h with ⟨hx, hxs⟩
    simp only [sortByOrder, ih hxs]
    cases xs with
    | nil => rfl
    | cons y ys =>
      simp only [insertByOrder, if_pos (hx y (List.mem_cons_self y ys))]

/-! ## Helper lemmas: order re-normalization -/

/-- Re-normalization keeps every book's title, author and cover. -/
theorem renumberFrom_fields (i : Nat) (l : List Book) :
    (renumberFrom i l).map bookFields = l.map bookFields := by
  induction l generalizing i with
  | nil => rfl
  | cons b bs ih => simp [renumberFrom, bookFields, ih]

/-- Re-normalization assigns the consecutive orders `i, i+1, ...`. -/
theorem renumberFrom_orders (i : Nat) (l : List Book) :
    (renumberFrom i l).map Book.order = (List.range' i l.length).map Int.ofNat := by
  induction l generalizing i with
  | nil => rfl
  | cons b bs ih => simp [renumberFrom, List.range'_succ, ih]

/-! ## Helper lemmas: ordered dictionaries -/

/-- `find?` distributes over append, preferring the left list. -/
theorem find?_append {α : Type} (l1 l2 : List α) (p : α → Bool) :
    List.find? p (l1 ++ l2) = (List.find? p l1).or (List.find? p l2) := by
  induction l1 with
  | nil => simp
  | cons a l ih =>
    simp only [List.cons_append, List.find?_cons]
    cases hp : p a
    · simpa using ih
    · simp

/-- The in-place update of `odUpsert` changes values only, so searching by
key commutes with it. -/
theorem find?_key_map {β : Type} (l : List (BKey × β)) (k k2 : BKey) (v : β) :
    List.find? (fun p => p.1 == k2) (l.map (fun p => if p.1 == k then (p.1, v) else p)) =
      (List.find? (fun p => p.1 == k2) l).map (fun p => if p.1 == k then (p.1, v) else p) := by
  induction l with
  | nil => rfl
  | cons p ps ih =>
    simp only [List.map_cons, List.find?_cons]
    have hfst : ((if p.1 == k then (p.1, v) else p) : BKey × β).1 = p.1 := by
      split <;> rfl
    rw [hfst]
    cases hp2 : (p.1 == k2)
    · simpa using ih
    · simp

/-- The key-presence test of `odUpsert` is membership in the key list. -/
theorem any_key_iff {β : Type} {d : List (BKey × β)} {k : BKey} :
    d.any (fun p => p.1 == k) = true ↔ k ∈ d.map Prod.fst := by
  simp only [List.any_eq_true, List.mem_map, beq_iff_eq]

/-- Updating an existing key leaves the key list unchanged. -/
theorem odKeys_odUpsert_replace {β : Type} {d : List (BKey × β)} {k : BKey} {v : β}
    (h : d.any (fun p => p.1 == k) = true) :
    (odUpsert d k v).map Prod.fst = d.map Prod.fst := by
  simp only [odUpsert, if_pos h, List.map_map]
  apply List.map_congr_left
  intro p _
  simp only [Function.comp]
  split <;> rfl

/-- Inserting a fresh key appends it to the key list. -/
theorem odKeys_odUpsert_new {β : Type} {d : List (BKey × β)} {k : BKey} {v : β}
    (h : d.any (fun p => p.1 == k) = false) :
    (odUpsert d k v).map Prod.fst = d.map Prod.fst ++ [k] := by
  simp [odUpsert, h]

/-- Key membership after an upsert. -/
theorem mem_odKeys_odUpsert {β : Type} {d : List (BKey × β)} {k0 k : BKey} {v : β} :
    k ∈ (odUpsert d k0 v).map Prod.fst ↔ k ∈ d.map Prod.fst ∨ k = k0 := by
  cases hb : d.any (fun p => p.1 == k0)
  · rw [odKeys_odUpsert_new hb]
    simp
  · rw [odKeys_odUpsert_replace hb]
    have hk0 : k0 ∈ d.map Prod.fst := any_key_iff.mp hb
    constructor
    · exact Or.inl
    · rintro (h | rfl)
      · exact h
      · exact hk0

/-- Looking up the key just written returns the value just written. -/
theorem odLookup_odUpsert_self {β : Type} (d : List (BKey × β)) (k : BKey) (v : β) :
    odLookup (odUpsert d k v) k = some v := by
  unfold odUpsert
  split
  · next hany =>
    unfold odLookup
    rw [find?_key_map]
    obtain ⟨p, hfind⟩ : ∃ p, List.find? (fun p => p.1 == k) d = some p := by
      cases hf : List.find? (fun p => p.1 == k) d with
      | some p => exact ⟨p, rfl⟩
      | none =>
        rcases List.any_eq_true.mp hany with ⟨q, hq, hqk⟩
        exact absurd hqk (by simpa using List.find?_eq_none.mp hf q hq)
    have hk : (p.1 == k) = true :=
      @List.find?_some (BKey × β) (fun q => q.1 == k) p d hfind
    rw [hfind]
    simp [beq_iff_eq.mp hk]
  · next hany =>
    have hnone : List.find? (fun p => p.1 == k) d = none := by
      rw [List.find?_eq_none]
      intro q hq hqk
      exact hany (List.any_eq_true.mpr ⟨q, hq, hqk⟩)
    unfold odLookup
    rw [find?_append, hnone]
    simp [List.find?]

/-- Looking up a different key is unaffected by an upsert. -/
theorem odLookup_odUpsert_ne {β : Type} (d : List (BKey × β)) (k k2 : BKey) (v : β)
    (hne : k2 ≠ k) : odLookup (odUpsert d k v) k2 = odLookup d k2 := by
  unfold odUpsert
  split
  · unfold odLookup
    rw [find?_key_map]
    cases hf : List.find? (fun p => p.1 == k2) d with
    | none => simp
    | some p =>
      have hp2 : p.1 = k2 :=
        beq_iff_eq.mp (@List.find?_some (BKey × β) (fun q => q.1 == k2) p d hf)
      have hpk : (p.1 == k) = false := by
        rw [hp2]
        simp [beq_iff_eq]
        exact hne
      simp [hf, hp2, hne]
  · unfold odLookup
    rw [find?_append]
    have hk2 : (((k, v) : BKey × β).1 == k2) = false := by
      simp [beq_iff_eq]
      intro h
      exact hne h.symm
    simp [List.find?, hk2]

/-- Upserting a value under its own key preserves dictionary
well-formedness (every entry's key is the key of its value). -/
theorem odWF_odUpsert {β : Type} {keyf : β → BKey} {d : List (BKey × β)} {v : β}
    (hwf : ∀ p ∈ d, p.1 = keyf p.2) :
    ∀ p ∈ odUpsert d (keyf v) v, p.1 = keyf p.2 := by
  intro p hp
  unfold odUpsert at hp
  split at hp
  · rcases List.mem_map.mp hp with ⟨q, hq, rfl⟩
    cases hqk : (q.1 == keyf v)
    · rw [if_neg (by simp)]
      exact hwf q hq
    · rw [if_pos rfl]
      exact beq_iff_eq.mp hqk
  · rcases List.mem_append.mp hp with h | h
    · exact hwf p h
    · simp only [List.mem_singleton] at h
      subst h
      rfl

/-- Upserting preserves distinctness of the keys. -/
theorem odKeysNodup_odUpsert {β : Type} {d : List (BKey × β)} {k : BKey} {v : β}
    (h : (d.map Prod.fst).Nodup) : ((odUpsert d k v).map Prod.fst).Nodup := by
  cases hb : d.any (fun p => p.1 == k)
  · rw [odKeys_odUpsert_new hb]
    rw [List.nodup_append]
    refine ⟨h, List.nodup_singleton k, ?_⟩
    intro a ha hak
    simp only [List.mem_singleton] at hak
    subst hak
    exact absurd (any_key_iff.mpr ha) (by simp [hb])
  · rw [odKeys_odUpsert_replace hb]
    exact h

/-- Folding upserts keyed by the value keeps the dictionary well-formed. -/
theorem odFold_wf {β : Type} (keyf : β → BKey) (l : List β) (d : List (BKey × β))
    (hd : ∀ p ∈ d, p.1 = keyf p.2) :
    ∀ p ∈ l.foldl (fun d2 b => odUpsert d2 (keyf b) b) d, p.1 = keyf p.2 := by
  induction l generalizing d with
  | nil => exact hd
  | cons b bs ih => exact ih _ (odWF_odUpsert hd)

/-- A dict built by comprehension is well-formed. -/
theorem odOfList_wf {β : Type} (keyf : β → BKey) (l : List β) :
    ∀ p ∈ odOfList keyf l, p.1 = keyf p.2 :=
  odFold_wf keyf l [] (by simp)

/-- Folding upserts keeps the keys distinct. -/
theorem odFold_keysNodup {β : Type} (keyf : β → BKey) (l : List β) (d : List (BKey × β))
    (hd : (d.map Prod.fst).Nodup) :
    ((l.foldl (fun d2 b => odUpsert d2 (keyf b) b) d).map Prod.fst).Nodup := by
  induction l generalizing d with
  | nil => exact hd
  | cons b bs ih => exact ih _ (odKeysNodup_odUpsert hd)

/-- A dict built by comprehension has distinct keys. -/
theorem odOfList_keysNodup {β : Type} (keyf : β → BKey) (l : List β) :
    ((odOfList keyf l).map Prod.fst).Nodup :=
  odFold_keysNodup keyf l [] (by simp)

/-- Keys after folding upserts: the old keys plus the keys of the folded
values. -/
theorem mem_odFold_keys {β : Type} (keyf : β → BKey) (l : List β) (d : List (BKey × β))
    (k : BKey) :
    (k ∈ (l.foldl (fun d2 b => odUpsert d2 (keyf b) b) d).map Prod.fst) ↔
      k ∈ d.map Prod.fst ∨ k ∈ l.map keyf := by
  induction l generalizing d with
  | nil => simp
  | cons b bs ih =>
    simp only [List.foldl_cons, List.map_cons, List.mem_cons]
    rw [ih, mem_odKeys_odUpsert]
    tauto

/-- The key set of a comprehension dict is the image of `keyf`. -/
theorem mem_odOfList_keys {β : Type} (keyf : β → BKey) (l : List β) (k : BKey) :
    k ∈ (odOfList keyf l).map Prod.fst ↔ k ∈ l.map keyf := by
  have h := mem_odFold_keys keyf l [] k
  simpa using h

/-- Searching the values of a well-formed dict by key is the dict lookup. -/
theorem find?_odValues {β : Type} (keyf : β → BKey) (d : List (BKey × β)) (k : BKey)
    (hwf : ∀ p ∈ d, p.1 = keyf p.2) :
    (odValues d).find? (fun x => keyf x == k) = odLookup d k := by
  induction d with
  | nil => rfl
  | cons p ps ih =>
    have hp := hwf p (List.mem_cons_self p ps)
    simp only [odValues, List.map_cons, List.find?_cons, odLookup]
    rw [← hp]
    cases hk : (p.1 == k)
    · simpa [odValues, odLookup] using ih (fun q hq => hwf q (List.mem_cons_of_mem p hq))
    · simp

/-- A value found by lookup is among the dict values. -/
theorem lookup_mem_odValues {β : Type} (d : List (BKey × β)) (k : BKey) (b : β)
    (h : odLookup d k = some b) : b ∈ odValues d := by
  unfold odLookup at h
  cases hf : List.find? (fun p => p.1 == k) d with
  | none =>
    rw [hf] at h
    cases h
  | some p =>
    rw [hf] at h
    simp only [Option.map, Option.some.injEq] at h
    exact h ▸ List.mem_map_of_mem Prod.snd (List.mem_of_find?_eq_some hf)

/-- In a well-formed dict with distinct keys, a value whose key looks up to
`b` must itself be `b`. -/
theorem odValues_eq_of_lookup {β : Type} (keyf : β → BKey) (d : List (BKey × β))
    (k : BKey) (b b2 : β) (hwf : ∀ p ∈ d, p.1 = keyf p.2)
    (hnd : (d.map Prod.fst).Nodup) (hlk : odLookup d k = some b)
    (hmem : b2 ∈ odValues d) (hk2 : keyf b2 = k) : b2 = b := by
  induction d with
  | nil => cases hmem
  | cons p ps ih =>
    have hpkey : p.1 = keyf p.2 := hwf p (List.mem_cons_self p ps)
    have hndtail : (ps.map Prod.fst).Nodup := (List.pairwise_cons.mp hnd).2
    have hhead : ∀ a ∈ ps.map Prod.fst, p.1 ≠ a := (List.pairwise_cons.mp hnd).1
    simp only [odValues, List.map_cons, List.mem_cons] at hmem
    unfold odLookup at hlk
    rw [List.find?_cons] at hlk
    cases hpk : (p.1 == k)
    · rw [hpk] at hlk
      rcases hmem with h2 | h2
      · exfalso
        have : p.1 = k := by
          rw [hpkey, ← h2]
          exact hk2
        simp [this] at hpk
      · exact ih (fun q hq => hwf q (List.mem_cons_of_mem p hq)) hndtail hlk h2
    · rw [hpk] at hlk
      simp only [Option.map, Option.some.injEq] at hlk
      rcases hmem with h2 | h2
      · rw [h2, hlk]
      · exfalso
        rcases List.mem_map.mp h2 with ⟨q, hq, hq2⟩
        have hq1 : q.1 = k := by
          rw [hwf q (List.mem_cons_of_mem p hq), hq2]
          exact hk2
        have : p.1 = k := beq_iff_eq.mp hpk
        exact hhead q.1 (List.mem_map_of_mem Prod.fst hq) (by rw [this, hq1])

/-! ## Helper lemmas: the diff engine -/

/-- `contains` on key lists is membership. -/
theorem contains_iff {l : List BKey} {k : BKey} : l.contains k = true ↔ k ∈ l :=
  List.elem_iff

/-- Negative `contains` on key lists is non-membership. -/
theorem contains_false_iff {l : List BKey} {k : BKey} : l.contains k = false ↔ ¬ k ∈ l := by
  constructor
  · intro h hm
    rw [contains_iff.mpr hm] at h
    cases h
  · intro h
    cases hc : l.contains k
    · rfl
    · exact absurd (contains_iff.mp hc) h

/-- Boolean negation of `contains`, as non-membership. -/
theorem not_contains_iff {l : List BKey} {k : BKey} :
    (!(l.contains k)) = true ↔ ¬ k ∈ l := by
  rw [Bool.not_eq_true']
  exact contains_false_iff

/-- Key membership through a filter-then-map on books. -/
theorem mem_map_filter_key {l : List Book} {p : Book → Bool} {k : BKey} :
    k ∈ (l.filter p).map Book.book_key ↔
      ∃ b ∈ l, Book.book_key b = k ∧ p b = true := by
  simp only [List.mem_map, List.mem_filter]
  constructor
  · rintro ⟨b, ⟨hb, hpb⟩, rfl⟩
    exact ⟨b, hb, rfl, hpb⟩
  · rintro ⟨b, hb, rfl, hpb⟩
    exact ⟨b, ⟨hb, hpb⟩, rfl⟩

/-- Key membership in a diff bucket built by filtering books against a key
list. -/
theorem mem_diff_filter_keys {src : List Book} {keys : List BKey} {k : BKey} :
    k ∈ (src.filter (fun b => keys.contains b.book_key)).map Book.book_key ↔
      k ∈ src.map Book.book_key ∧ k ∈ keys := by
  rw [mem_map_filter_key]
  constructor
  · rintro ⟨b, hb, rfl, hp⟩
    exact ⟨List.mem_map_of_mem Book.book_key hb, contains_iff.mp hp⟩
  · rintro ⟨h1, h2⟩
    rcases List.mem_map.mp h1 with ⟨b, hb, rfl⟩
    exact ⟨b, hb, rfl, contains_iff.mpr h2⟩

/-- Membership in a key-list difference (`filter` by negated `contains`). -/
theorem mem_filter_not_contains {keys1 keys2 : List BKey} {k : BKey} :
    k ∈ keys1.filter (fun k2 => !(keys2.contains k2)) ↔ k ∈ keys1 ∧ ¬ k ∈ keys2 := by
  rw [List.mem_filter, not_contains_iff]

/-- Membership in a key-list intersection (`filter` by `contains`). -/
theorem mem_filter_contains {keys1 keys2 : List BKey} {k : BKey} :
    k ∈ keys1.filter (fun k2 => keys2.contains k2) ↔ k ∈ keys1 ∧ k ∈ keys2 := by
  rw [List.mem_filter, contains_iff]

/-- Keys of `books_to_add`: exactly the keys in the session but not on the
shelf. -/
theorem mem_addKeys (session : AuditSession) (shelf : Bookshelf) (k : BKey) :
    k ∈ (compute_diff session shelf).books_to_add.map Book.book_key ↔
      k ∈ session.scanned_books.map Book.book_key ∧
        ¬ k ∈ shelf.books.map Book.book_key := by
  simp only [compute_diff]
  rw [mem_diff_filter_keys, mem_filter_not_contains]
  tauto

/-- Keys of `books_to_remove`: exactly the keys on the shelf but not in the
session. -/
theorem mem_remKeys (session : AuditSession) (shelf : Bookshelf) (k : BKey) :
    k ∈ (compute_diff session shelf).books_to_remove.map Book.book_key ↔
      k ∈ shelf.books.map Book.book_key ∧
        ¬ k ∈ session.scanned_books.map Book.book_key := by
  simp only [compute_diff]
  rw [mem_diff_filter_keys, mem_filter_not_contains]
  tauto

/-- Keys of `books_matching`: exactly the keys in both collections. -/
theorem mem_matchKeys (session : AuditSession) (shelf : Bookshelf) (k : BKey) :
    k ∈ (compute_diff session shelf).books_matching.map Book.book_key ↔
      k ∈ session.scanned_books.map Book.book_key ∧
        k ∈ shelf.books.map Book.book_key := by
  simp only [compute_diff]
  rw [mem_diff_filter_keys, mem_filter_contains]
  tauto

/-! ## Helper lemmas: applying the diff -/

/-- Diffing an empty session against any shelf flags every shelf book for
removal and nothing else. -/
theorem compute_diff_empty_session (session : AuditSession) (shelf : Bookshelf)
    (h : session.scanned_books = []) :
    compute_diff session shelf =
      { books_to_add := [], books_to_remove := shelf.books, books_matching := [] } := by
  unfold compute_diff
  rw [h]
  simp only [List.map_nil, List.filter_nil, AuditDiff.mk.injEq, true_and, and_true]
  rw [List.filter_eq_self]
  intro b hb
  rw [contains_iff, mem_filter_not_contains]
  refine ⟨List.mem_map_of_mem Book.book_key hb, ?_⟩
  simp

/-- A one-book `add_books` batch whose key is already present reduces to a
single dict update. -/
theorem addBooksLoop_existing_single (d : List (BKey × Book)) (b : Book) (m : Int)
    (h : d.any (fun p => p.1 == lowerKey b) = true) :
    addBooksLoop [b] d m = odUpsert d (lowerKey b) b := by
  simp [addBooksLoop, h]

/-! ## Helper lemmas: the audit-session dedup -/

/-- Folding upserts of values with pairwise-fresh keys just appends the
corresponding entries. -/
theorem odFold_append_fresh {β : Type} (keyf : β → BKey) :
    ∀ (l : List β) (d : List (BKey × β)),
      (∀ x ∈ l, ¬ keyf x ∈ d.map Prod.fst) → (l.map keyf).Nodup →
        l.foldl (fun d2 b => odUpsert d2 (keyf b) b) d =
          d ++ l.map (fun x => (keyf x, x))
  | [], d, _, _ => by simp
  | b :: bs, d, hfresh, hnd => by
    simp only [List.map_cons] at hnd
    rcases List.pairwise_cons.mp hnd with ⟨hhead, htail⟩
    have hb : ¬ keyf b ∈ d.map Prod.fst := hfresh b (List.mem_cons_self b bs)
    have hany : d.any (fun p => p.1 == keyf b) = false := by
      cases hc : d.any (fun p => p.1 == keyf b)
      · rfl
      · exact absurd (any_key_iff.mp hc) hb
    have hstep : odUpsert d (keyf b) b = d ++ [(keyf b, b)] := by
      unfold odUpsert
      rw [if_neg (by simp [hany])]
    have hfresh2 : ∀ x ∈ bs, ¬ keyf x ∈ (d ++ [(keyf b, b)]).map Prod.fst := by
      intro x hx hmem
      rw [List.map_append, List.mem_append] at hmem
      rcases hmem with h1 | h1
      · exact hfresh x (List.mem_cons_of_mem b hx) h1
      · simp only [List.map_cons, List.map_nil, List.mem_singleton] at h1
        exact hhead (keyf x) (List.mem_map_of_mem keyf hx) h1.symm
    simp only [List.foldl_cons, hstep]
    rw [odFold_append_fresh keyf bs (d ++ [(keyf b, b)]) hfresh2 htail]
    simp

/-- When the source keys are distinct, the comprehension dict is just the
list of key-value pairs in source order. -/
theorem odOfList_of_keysNodup {β : Type} (keyf : β → BKey) (l : List β)
    (h : (l.map keyf).Nodup) : odOfList keyf l = l.map (fun x => (keyf x, x)) := by
  have h2 := odFold_append_fresh keyf l [] (by simp) h
  simpa [odOfList] using h2

/-- Lookup in a literal key-value pairing is `find?` on the source list. -/
theorem odLookup_map_pair {β : Type} (keyf : β → BKey) (l : List β) (k : BKey) :
    odLookup (l.map (fun x => (keyf x, x))) k = l.find? (fun x => keyf x == k) := by
  induction l with
  | nil => rfl
  | cons x xs ih =>
    simp only [List.map_cons, odLookup, List.find?_cons]
    cases hx : (keyf x == k)
    · simpa [odLookup] using ih
    · simp

/-- The scanned-book dedup fold never touches an entry whose stored book
already has a truthy cover, and keeps the dict well-formed. -/
theorem scanFold_preserves (books : List Book) :
    ∀ (d : List (BKey × Book)) (k : BKey) (b : Book),
      (∀ p ∈ d, p.1 = Book.book_key p.2) →
      odLookup d k = some b → truthyStr b.cover_url = true →
      odLookup (books.foldl scanStep d) k = some b ∧
        (∀ p ∈ books.foldl scanStep d, p.1 = Book.book_key p.2) := by
  induction books with
  | nil =>
    intro d k b hwf hlk _
    exact ⟨hlk, hwf⟩
  | cons nb rest ih =>
    intro d k b hwf hlk hcov
    have hstep : odLookup (scanStep d nb) k = some b ∧
        (∀ p ∈ scanStep d nb, p.1 = Book.book_key p.2) := by
      cases hl : odLookup d nb.book_key with
      | none =>
        have hs : scanStep d nb = odUpsert d nb.book_key nb := by
          unfold scanStep
          rw [hl]
        have hne : k ≠ nb.book_key := by
          intro he
          rw [he, hl] at hlk
          cases hlk
        rw [hs]
        exact ⟨(odLookup_odUpsert_ne d nb.book_key k nb hne).trans hlk,
          odWF_odUpsert hwf⟩
      | some old =>
        cases hcond : (truthyStr nb.cover_url && !truthyStr old.cover_url)
        · have hs : scanStep d nb = d := by
            unfold scanStep
            rw [hl]
            show (if (truthyStr nb.cover_url && !truthyStr old.cover_url) = true then
                odUpsert d nb.book_key nb else d) = d
            rw [if_neg (by simp [hcond])]
          rw [hs]
          exact ⟨hlk, hwf⟩
        · have hs : scanStep d nb = odUpsert d nb.book_key nb := by
            unfold scanStep
            rw [hl]
            show (if (truthyStr nb.cover_url && !truthyStr old.cover_url) = true then
                odUpsert d nb.book_key nb else d) = odUpsert d nb.book_key nb
            rw [if_pos hcond]
          have hne : k ≠ nb.book_key := by
            intro he
            rw [he, hl] at hlk
            have hob : old = b := by injection hlk
            rw [hob, hcov] at hcond
            simp at hcond
          rw [hs]
          exact ⟨(odLookup_odUpsert_ne d nb.book_key k nb hne).trans hlk,
            odWF_odUpsert hwf⟩
    exact ih (scanStep d nb) k b hstep.2 hstep.1 hcov

/-! ## Claim theorems -/

/-- C1 (counterexample): the claim says `add_books` preserves the stored
entry's `order` when the incoming book's key already exists.  On a shelf
holding Dune at order 5, adding Dune with the default order 0 leaves a
single entry whose order is 0, not 5: the stored order is not preserved. -/
theorem add_books_existing_resets_order_cex :
    ((add_books
        { books := [{ title := "Dune", author := "Herbert", cover_url := none, order := 5 }] }
        [{ title := "Dune", author := "Herbert", cover_url := some "u", order := 0 }]
        "t1").books =
      [{ title := "Dune", author := "Herbert", cover_url := some "u", order := 0 }]) ∧
    ¬ (∃ b ∈ (add_books
        { books := [{ title := "Dune", author := "Herbert", cover_url := none, order := 5 }] }
        [{ title := "Dune", author := "Herbert", cover_url := some "u", order := 0 }]
        "t1").books, b.order = 5) := by
  decide

/-- C1 (amended): when the incoming book's (lowercased, untrimmed) key is
already on the shelf, `add_books` overwrites that entry entirely with the
incoming book — title, author, cover_url AND order.  The incoming book is
stored verbatim and is the unique book under its key afterwards. -/
theorem add_books_existing_overwrites_entry (shelf : Bookshelf) (b : Book) (now : String)
    (h : lowerKey b ∈ shelf.books.map lowerKey) :
    b ∈ (add_books shelf [b] now).books ∧
      ∀ b2 ∈ (add_books shelf [b] now).books, lowerKey b2 = lowerKey b → b2 = b := by
  have hkeys : lowerKey b ∈ (odOfList lowerKey shelf.books).map Prod.fst :=
    (mem_odOfList_keys lowerKey shelf.books (lowerKey b)).mpr h
  have hany : (odOfList lowerKey shelf.books).any (fun p => p.1 == lowerKey b) = true :=
    any_key_iff.mpr hkeys
  have hbooks : (add_books shelf [b] now).books =
      sortByOrder (odValues (addBooksLoop [b] (odOfList lowerKey shelf.books)
        (maxOrder shelf.books))) := rfl
  rw [addBooksLoop_existing_single _ _ _ hany] at hbooks
  have hwf : ∀ p ∈ odUpsert (odOfList lowerKey shelf.books) (lowerKey b) b,
      p.1 = lowerKey p.2 := odWF_odUpsert (odOfList_wf lowerKey shelf.books)
  have hnd : ((odUpsert (odOfList lowerKey shelf.books) (lowerKey b) b).map Prod.fst).Nodup :=
    odKeysNodup_odUpsert (odOfList_keysNodup lowerKey shelf.books)
  have hlk : odLookup (odUpsert (odOfList lowerKey shelf.books) (lowerKey b) b)
      (lowerKey b) = some b := odLookup_odUpsert_self _ _ _
  constructor
  · rw [hbooks, mem_sortByOrder]
    exact lookup_mem_odValues _ _ _ hlk
  · intro b2 hb2 hkey
    rw [hbooks, mem_sortByOrder] at hb2
    exact odValues_eq_of_lookup lowerKey _ (lowerKey b) b b2 hwf hnd hlk hb2 hkey

/-- C1 (witness): the amended theorem applied to the concrete Dune shelf. -/
theorem add_books_existing_overwrites_entry_witness :
    ({ title := "Dune", author := "Herbert", cover_url := some "u", order := 0 } : Book) ∈
      (add_books
        { books := [{ title := "Dune", author := "Herbert", cover_url := none, order := 5 }] }
        [{ title := "Dune", author := "Herbert", cover_url := some "u", order := 0 }]
        "t1").books ∧
      ∀ b2 ∈ (add_books
        { books := [{ title := "Dune", author := "Herbert", cover_url := none, order := 5 }] }
        [{ title := "Dune", author := "Herbert", cover_url := some "u", order := 0 }]
        "t1").books,
        lowerKey b2 =
          lowerKey { title := "Dune", author := "Herbert", cover_url := some "u", order := 0 } →
        b2 = { title := "Dune", author := "Herbert", cover_url := some "u", order := 0 } :=
  add_books_existing_overwrites_entry
    { books := [{ title := "Dune", author := "Herbert", cover_url := none, order := 5 }] }
    { title := "Dune", author := "Herbert", cover_url := some "u", order := 0 }
    "t1" (by decide)

/-- C2 (counterexample): the claim says diff-apply-diff yields an all-empty
diff.  Starting from an empty shelf and a session holding Dune, applying
the diff (adding Dune, clearing the session) and diffing again flags Dune
for removal, so the second diff is not empty. -/
theorem apply_then_diff_nonempty_cex :
    ¬ ((compute_diff
          (apply_audit_diff { books := [] }
            { scanned_books := [{ title := "Dune", author := "Herbert" }] } true true "t1").2
          (apply_audit_diff { books := [] }
            { scanned_books := [{ title := "Dune", author := "Herbert" }] } true true "t1").1).books_to_add = [] ∧
        (compute_diff
          (apply_audit_diff { books := [] }
            { scanned_books := [{ title := "Dune", author := "Herbert" }] } true true "t1").2
          (apply_audit_diff { books := [] }
            { scanned_books := [{ title := "Dune", author := "Herbert" }] } true true "t1").1).books_to_remove = [] ∧
        (compute_diff
          (apply_audit_diff { books := [] }
            { scanned_books := [{ title := "Dune", author := "Herbert" }] } true true "t1").2
          (apply_audit_diff { books := [] }
            { scanned_books := [{ title := "Dune", author := "Herbert" }] } true true "t1").1).books_matching = []) := by
  decide

/-- C2 (amended): after `compute_diff` followed by `apply` with both flags
set, a second `compute_diff` (with no intervening scans) has empty
`books_to_add` and `books_matching`, but its `books_to_remove` is exactly
the whole post-apply bookshelf, because `apply` cleared the session.  All
three buckets are empty only when the resulting bookshelf is empty. -/
theorem diff_after_apply_flags_all_for_removal (shelf : Bookshelf) (session : AuditSession)
    (now : String) :
    compute_diff (apply_audit_diff shelf session true true now).2
        (apply_audit_diff shelf session true true now).1 =
      { books_to_add := [],
        books_to_remove := (apply_audit_diff shelf session true true now).1.books,
        books_matching := [] } :=
  compute_diff_empty_session _ _ rfl

/-- C3 (code evaluation at the failing input): `Book.book_key` identifies
"Dune " with "Dune" (trim), yet `remove_book` of ("Dune ", "Herbert") does
not remove the stored Dune, and `add_books` of "Dune " alongside a stored
"Dune" creates a second entry: the manager compares by lowercased keys
without stripping, diverging from the normalizer. -/
theorem dedup_key_divergence_eval :
    Book.book_key { title := "Dune ", author := "Herbert" } =
        Book.book_key { title := "Dune", author := "Herbert" } ∧
      (remove_book { books := [{ title := "Dune", author := "Herbert" }] }
          "Dune " "Herbert" "t1").books =
        [{ title := "Dune", author := "Herbert", cover_url := none, order := 0 }] ∧
      (add_books { books := [{ title := "Dune", author := "Herbert" }] }
          [{ title := "Dune ", author := "Herbert" }] "t1").books.length = 2 := by
  decide

/-- C4: the diff is a true partition at the level of normalized keys: no
key is in both `books_to_add` and `books_to_remove`, and a key occurs in
the union of session and bookshelf exactly when it occurs in exactly one of
the three buckets. -/
theorem audit_diff_partition (session : AuditSession) (shelf : Bookshelf) (k : BKey) :
    (¬ (k ∈ (compute_diff session shelf).books_to_add.map Book.book_key ∧
          k ∈ (compute_diff session shelf).books_to_remove.map Book.book_key)) ∧
      ((k ∈ session.scanned_books.map Book.book_key ∨
          k ∈ shelf.books.map Book.book_key) ↔
        exactlyOne (k ∈ (compute_diff session shelf).books_to_add.map Book.book_key)
          (k ∈ (compute_diff session shelf).books_to_remove.map Book.book_key)
          (k ∈ (compute_diff session shelf).books_matching.map Book.book_key)) := by
  simp only [exactlyOne, mem_addKeys, mem_remKeys, mem_matchKeys]
  tauto

/-- C5 (code evaluation at the failing input): adding "Dune" and "Dune "
(identical under `book_key`) in one batch to an empty shelf stores two
books with the same normalized key, so the books are not unique by
`book_key` after the mutation. -/
theorem mutation_breaks_book_key_uniqueness_eval :
    ¬ (((add_books { books := [] }
        [{ title := "Dune", author := "Herbert" }, { title := "Dune ", author := "Herbert" }]
        "t1").books.map Book.book_key).Nodup) := by
  decide

/-- C6: `remove_book` keeps the surviving books' titles, authors and covers
in the order they occurred in the filtered sequence, and rewrites their
orders to exactly 0..n-1. -/
theorem remove_book_renormalizes_orders (shelf : Bookshelf) (title author now : String) :
    (remove_book shelf title author now).books.map bookFields =
        (shelf.books.filter (fun b => !(removeMatch title author b))).map bookFields ∧
      (remove_book shelf title author now).books.map Book.order =
        (List.range (shelf.books.filter
          (fun b => !(removeMatch title author b))).length).map Int.ofNat := by
  constructor
  · exact renumberFrom_fields 0 _
  · rw [List.range_eq_range']
    exact renumberFrom_orders 0 _

/-- C7: `reorder_books` is idempotent — applying the same order entries a
second time leaves the book sequence unchanged. -/
theorem reorder_books_idempotent (shelf : Bookshelf) (entries : List OrderEntry)
    (now now2 : String) :
    (reorder_books (reorder_books shelf entries now) entries now2).books =
      (reorder_books shelf entries now).books := by
  have happly : ∀ x : Book, applyOrder (orderMap entries) (applyOrder (orderMap entries) x) =
      applyOrder (orderMap entries) x := by
    intro x
    unfold applyOrder
    cases hl : odLookup (orderMap entries) (pyLower x.title, pyLower x.author) <;> simp [hl]
  have hb1 : (reorder_books shelf entries now).books =
      sortByOrder (shelf.books.map (applyOrder (orderMap entries))) := rfl
  have hb2 : (reorder_books (reorder_books shelf entries now) entries now2).books =
      sortByOrder ((sortByOrder (shelf.books.map (applyOrder (orderMap entries)))).map
        (applyOrder (orderMap entries))) := rfl
  rw [hb2, hb1]
  have hid : ∀ y ∈ sortByOrder (shelf.books.map (applyOrder (orderMap entries))),
      applyOrder (orderMap entries) y = id y := by
    intro y hy
    rcases List.mem_map.mp (mem_sortByOrder.mp hy) with ⟨x, _, rfl⟩
    exact happly x
  rw [(List.map_congr_left hid).trans (List.map_id _)]
  exact sortByOrder_of_sorted (sortByOrder_sorted _)

/-- C8: if the session stores a book with key `k` and a truthy cover, then
after any `add_scanned_books` call the book stored under `k` is that very
book (an incoming duplicate without a cover never replaces it), so its
cover is still present. -/
theorem add_scanned_books_preserves_cover (session : AuditSession) (books : List Book)
    (now : String) (k : BKey) (b : Book)
    (hnd : (session.scanned_books.map Book.book_key).Nodup)
    (hfind : session.scanned_books.find? (fun x => Book.book_key x == k) = some b)
    (hcov : truthyStr b.cover_url = true) :
    (add_scanned_books session books now).scanned_books.find?
        (fun x => Book.book_key x == k) = some b := by
  have hd0eq : odOfList Book.book_key session.scanned_books =
      session.scanned_books.map (fun x => (Book.book_key x, x)) :=
    odOfList_of_keysNodup Book.book_key session.scanned_books hnd
  have hlk0 : odLookup (odOfList Book.book_key session.scanned_books) k = some b := by
    rw [hd0eq, odLookup_map_pair]
    exact hfind
  have hwf0 := odOfList_wf Book.book_key session.scanned_books
  have hmain := scanFold_preserves books (odOfList Book.book_key session.scanned_books)
    k b hwf0 hlk0 hcov
  have hscanned : (add_scanned_books session books now).scanned_books =
      odValues (books.foldl scanStep (odOfList Book.book_key session.scanned_books)) := rfl
  rw [hscanned, find?_odValues Book.book_key _ k hmain.2]
  exact hmain.1

/-- C8 (witness): a session holding Dune with a cover, rescanned without a
cover, still stores the covered copy. -/
theorem add_scanned_books_preserves_cover_witness :
    (add_scanned_books
        { scanned_books :=
            [{ title := "Dune", author := "Herbert", cover_url := some "u", order := 0 }] }
        [{ title := "Dune", author := "Herbert", cover_url := none, order := 0 }]
        "t2").scanned_books.find?
        (fun x => Book.book_key x == ("dune", "herbert")) =
      some { title := "Dune", author := "Herbert", cover_url := some "u", order := 0 } :=
  add_scanned_books_preserves_cover
    { scanned_books :=
        [{ title := "Dune", author := "Herbert", cover_url := some "u", order := 0 }] }
    [{ title := "Dune", author := "Herbert", cover_url := none, order := 0 }]
    "t2" ("dune", "herbert")
    { title := "Dune", author := "Herbert", cover_url := some "u", order := 0 }
    (by decide) (by decide) (by decide)

/-- C9 (code evaluation at the failing input): a response body that fails
JSON parsing makes `get_book_cover_url` raise `json.JSONDecodeError` to its
caller (the except clause lists only `httpx.HTTPError`, `KeyError` and
`IndexError`), while network errors, HTTP status errors and missing data
do return `None`. -/
theorem get_book_cover_url_raises_on_malformed_body :
    get_book_cover_url "Dune" "Herbert" .malformedBody =
        .error .jsonDecodeError ∧
      get_book_cover_url "Dune" "Herbert" .requestError = .ok none ∧
      get_book_cover_url "Dune" "Herbert" .statusError = .ok none ∧
      get_book_cover_url "Dune" "Herbert" (.parsed {}) = .ok none :=
  ⟨rfl, rfl, rfl, rfl⟩

/-- C10: `remove_book` with a title/author matching nothing still rewrites
every book's order to its index (0..n-1), stamps `last_updated`, and keeps
the set of books and their relative order unchanged. -/
theorem remove_book_no_match_frame (shelf : Bookshelf) (title author now : String)
    (h : ∀ b ∈ shelf.books, removeMatch title author b = false) :
    (remove_book shelf title author now).books.map bookFields =
        shelf.books.map bookFields ∧
      (remove_book shelf title author now).books.map Book.order =
        (List.range shelf.books.length).map Int.ofNat ∧
      (remove_book shelf title author now).last_updated = some now := by
  have hf : shelf.books.filter (fun b => !(removeMatch title author b)) = shelf.books := by
    rw [List.filter_eq_self]
    intro b hb
    simp [h b hb]
  have hbooks : (remove_book shelf title author now).books =
      renumberFrom 0 (shelf.books.filter (fun b => !(removeMatch title author b))) := rfl
  refine ⟨?_, ?_, rfl⟩
  · rw [hbooks, hf]
    exact renumberFrom_fields 0 _
  · rw [hbooks, hf, List.range_eq_range']
    exact renumberFrom_orders 0 _

/-- C10 (witness): removing absent Foundation from a shelf holding Dune at
order 3 keeps Dune but rewrites its order to 0 and stamps the timestamp. -/
theorem remove_book_no_match_frame_witness :
    (remove_book
        { books := [{ title := "Dune", author := "Herbert", cover_url := none, order := 3 }] }
        "Foundation" "Asimov" "t1").books.map bookFields =
        [({ title := "Dune", author := "Herbert", cover_url := none, order := 3 } : Book)].map
          bookFields ∧
      (remove_book
        { books := [{ title := "Dune", author := "Herbert", cover_url := none, order := 3 }] }
        "Foundation" "Asimov" "t1").books.map Book.order =
        (List.range
          [({ title := "Dune", author := "Herbert", cover_url := none, order := 3 } : Book)].length).map
          Int.ofNat ∧
      (remove_book
        { books := [{ title := "Dune", author := "Herbert", cover_url := none, order := 3 }] }
        "Foundation" "Asimov" "t1").last_updated = some "t1" :=
  remove_book_no_match_frame
    { books := [{ title := "Dune", author := "Herbert", cover_url := none, order := 3 }] }
    "Foundation" "Asimov" "t1" (by decide)
